import Mathlib

/-!
Verification of the customer-health scoring core of the healthscore dashboard.

The definitions below are a shallow embedding of the Weight Normalizer
(src/data/customerData.ts, calculateOptimizedWeights, lines 196-223), the
Health Score Calculator and A/B Test Manager (src/ml/scoreOptimizer.ts,
class ScoreOptimizer) and the Correlation Engine (calculateCorrelation,
scoreOptimizer.ts lines 554-577).

JS numbers are modelled as rationals (exact arithmetic); JS objects are
modelled as association lists in insertion order, with property reads as
List.lookup (first matching key) and property writes as updates of the
entries holding the key.  Operations that can hit a thrown-and-caught
TypeError in the source return through the explicit fallback branch the
catch block produces, and a JS undefined result is modelled as none.
-/

/-- JS Math.round: round half toward positive infinity. -/
def roundHalfUp (q : ℚ) : ℤ := ⌊q + 1 / 2⌋

/-- Rewrite the value stored under key k (JS property update; keys of a JS
object are unique, the map form keeps lookups identical even on junk input). -/
def updateVal {α : Type} (l : List (String × α)) (k : String) (f : α → α) :
    List (String × α) :=
  l.map (fun p => if p.1 = k then (p.1, f p.2) else p)

/-- Add d to the value at the first occurrence of key k (JS += on the unique
property of that name). -/
def addToFirst (l : List (String × ℤ)) (k : String) (d : ℤ) : List (String × ℤ) :=
  match l with
  | [] => []
  | p :: rest => if p.1 = k then (p.1, p.2 + d) :: rest else p :: addToFirst rest k d

/-- Steps (2)-(3) of the Weight Normalizer inside calculateOptimizedWeights
(customerData.ts lines 196-212): divide each raw score by the total, scale to
100 and round with JS Math.round. -/
def roundedWeights (scores : List (String × ℚ)) : List (String × ℤ) :=
  let total := (scores.map Prod.snd).sum
  scores.map (fun p => (p.1, roundHalfUp (p.2 / total * 100)))

/-- First entry holding the maximal value: the head of the stable descending
sort Object.entries(weights).sort((a, b) => b[1] - a[1]) at customerData.ts
line 219 (Array.prototype.sort is stable, so ties keep insertion order). -/
def firstMaxEntry (l : List (String × ℤ)) : Option (String × ℤ) :=
  l.find? (fun p => l.all (fun q => decide (q.2 ≤ p.2)))

/-- The Weight Normalizer (customerData.ts lines 196-223): round each share of
100, then add the rounding residual 100 - sum to the single feature currently
holding the highest weight.  On an empty map the source would throw while
indexing the sorted entries; that unreachable branch returns the list. -/
def normalizeTo100 (scores : List (String × ℚ)) : List (String × ℤ) :=
  let ws := roundedWeights scores
  let s := (ws.map Prod.snd).sum
  if s = 100 then ws
  else
    match firstMaxEntry ws with
    | some p => addToFirst ws p.1 (100 - s)
    | none => ws

/-- needle occurs at the start of hay. -/
def charsLeads : List Char → List Char → Bool
  | [], _ => true
  | _ :: _, [] => false
  | a :: as, b :: bs => a == b && charsLeads as bs

/-- needle occurs contiguously somewhere in hay (JS String.prototype.includes). -/
def charsHasSub (needle : List Char) : List Char → Bool
  | [] => charsLeads needle []
  | c :: rest => charsLeads needle (c :: rest) || charsHasSub needle rest

/-- ASCII lower-casing of a string (the JS code lower-cases ASCII camel-case
feature names only). -/
def lowerStr (s : String) : String := ⟨s.data.map Char.toLower⟩

/-- feature.toLowerCase().includes(inv.toLowerCase()). -/
def strIncludesCI (hay needle : String) : Bool :=
  charsHasSub (lowerStr needle).data (lowerStr hay).data

/-- The fixed lower-is-better markers of calculateHealthScore
(scoreOptimizer.ts lines 77-81). -/
def invertedFeatures : List String :=
  ["churnProbability", "daysSinceLastLogin", "supportTickets"]

/-- invertedFeatures.some(inv => feature.toLowerCase().includes(inv.toLowerCase()))
(scoreOptimizer.ts lines 82-84). -/
def isInvertedFeature (feature : String) : Bool :=
  invertedFeatures.any (fun inv => strIncludesCI feature inv)

/-- The normalized (possibly inverted) feature value, scoreOptimizer.ts
lines 82-86. -/
def normalizedValue (feature : String) (value : ℚ) : ℚ :=
  if isInvertedFeature feature then 1 - value else value

/-- The accumulation loop of calculateHealthScore (scoreOptimizer.ts lines
68-92): over the weight entries whose feature is present in the record,
accumulate (score, totalWeight). -/
def healthAccum (customerData weights : List (String × ℚ)) : ℚ × ℚ :=
  weights.foldl
    (fun acc fw =>
      match customerData.lookup fw.1 with
      | none => acc
      | some value => (acc.1 + normalizedValue fw.1 value * fw.2, acc.2 + fw.2))
    (0, 0)

/-- calculateHealthScore (scoreOptimizer.ts lines 59-102) with the weight map
passed explicitly (the JS default weights argument is resolved by the caller).
The try/catch is vacuous in this pure model: no branch below throws. -/
def calculateHealthScore (customerData weights : List (String × ℚ)) : ℚ :=
  let a := healthAccum customerData weights
  if 0 < a.2 then 100 * (a.1 / a.2) else 50

structure ABTestVariant where
  name : String
  weights : List (String × ℚ)
deriving DecidableEq, Repr

structure VariantStats where
  conversions : ℕ
  total : ℕ
deriving DecidableEq, Repr

inductive ABTestStatus
  | active
  | paused
  | completed
deriving DecidableEq, Repr

/-- ABTestConfig (scoreOptimizer.ts lines 21-33); startDate, a wall-clock ISO
string never read by any operation, is omitted. -/
structure ABTestConfig where
  name : String
  variants : List ABTestVariant
  allocation : List ℚ
  status : ABTestStatus
  results : List (String × VariantStats)
deriving DecidableEq, Repr

/-- The mutable fields of class ScoreOptimizer read or written by the
operations under study; optimizationHistory (only appended to by the
Math.random simulation paths) is omitted. -/
structure ScoreOptimizerState where
  featureWeights : List (String × ℚ)
  abTestGroups : List (String × ABTestConfig)
deriving DecidableEq, Repr

/-- Wrap an integer to signed 32-bit, the JS | 0 coercion. -/
def toInt32 (n : ℤ) : ℤ := (n + 2 ^ 31) % 2 ^ 32 - 2 ^ 31

/-- The rolling hash of assignVariant (scoreOptimizer.ts lines 176-181):
hashValue = (hashValue << 5) - hashValue + charCodeAt(i), truncated to a
signed 32-bit integer at every step (the << itself wraps to 32 bits, and the
following subtraction and addition are exact in doubles before the | 0).
Char.toNat is the UTF-16 code unit for the ASCII inputs involved. -/
def jsHash (s : String) : ℤ :=
  s.data.foldl (fun h c => toInt32 (toInt32 (h * 32) - h + (c.toNat : ℤ))) 0

/-- Math.abs(hashValue % 100) at line 184; the JS truncated remainder followed
by Math.abs equals the natural remainder of the absolute value. -/
def hashPct (s : String) : ℕ := (jsHash s).natAbs % 100

/-- The allocation walk of assignVariant (scoreOptimizer.ts lines 187-198):
accumulate percentages until the bucket falls strictly below the running
cumulative sum; returns the index of that variant. -/
def findAllocIdx (alloc : List ℚ) (pct : ℚ) (cum : ℚ) (i : ℕ) : Option ℕ :=
  match alloc with
  | [] => none
  | a :: rest => if pct < cum + a then some i else findAllocIdx rest pct (cum + a) (i + 1)

/-- The pseudo-variant built in the catch block of assignVariant when the test
is unknown (scoreOptimizer.ts line 212). -/
def defaultVariant (st : ScoreOptimizerState) : ABTestVariant :=
  { name := "default", weights := st.featureWeights }

/-- assignVariant (scoreOptimizer.ts lines 165-215).  A none first component
models the JS function returning undefined (variants[0] of an empty variant
list).  The three catch-reachable paths are made explicit: unknown test name
(throw at line 169, caught, default variant), variant index past the variant
list (TypeError reading .name of undefined, caught before any mutation), and
a returned variant name missing from the results object (TypeError reading
.total of undefined, caught before any mutation). -/
def assignVariant (st : ScoreOptimizerState) (testName customerId : String) :
    Option ABTestVariant × ScoreOptimizerState :=
  match st.abTestGroups.lookup testName with
  | none => (some (defaultVariant st), st)
  | some cfg =>
    let pct : ℚ := (hashPct (customerId ++ ":" ++ testName) : ℚ)
    match findAllocIdx cfg.allocation pct 0 0 with
    | none => (cfg.variants.get? 0, st)
    | some i =>
      match cfg.variants.get? i with
      | none =>
        (if cfg.variants.isEmpty then some (defaultVariant st) else cfg.variants.get? 0, st)
      | some v =>
        match cfg.results.lookup v.name with
        | none => (cfg.variants.get? 0, st)
        | some _ =>
          (some v,
            { st with
                abTestGroups :=
                  updateVal st.abTestGroups testName (fun c =>
                    { c with
                        results := updateVal c.results v.name (fun r =>
                          { r with total := r.total + 1 }) }) })

/-- recordConversion (scoreOptimizer.ts lines 220-250): false on unknown test
or unknown variant (both thrown and caught internally), otherwise true, with
the conversion counter bumped only when converted is set. -/
def recordConversion (st : ScoreOptimizerState) (testName variantName : String)
    (converted : Bool) : Bool × ScoreOptimizerState :=
  match st.abTestGroups.lookup testName with
  | none => (false, st)
  | some cfg =>
    match cfg.results.lookup variantName with
    | none => (false, st)
    | some _ =>
      if converted then
        (true,
          { st with
              abTestGroups :=
                updateVal st.abTestGroups testName (fun c =>
                  { c with
                      results := updateVal c.results variantName (fun r =>
                        { r with conversions := r.conversions + 1 }) }) })
      else (true, st)

/-- Object.fromEntries (scoreOptimizer.ts lines 137-142): first occurrence of
a key fixes its position, a later duplicate overwrites the stored value. -/
def fromEntries (l : List (String × VariantStats)) : List (String × VariantStats) :=
  l.foldl
    (fun acc p =>
      if (acc.lookup p.1).isSome then updateVal acc p.1 (fun _ => p.2) else acc ++ [p])
    []

/-- The JS property write this.abTestGroups[testName] = testConfig: overwrite
in place when the key exists, append otherwise. -/
def setAssoc (l : List (String × ABTestConfig)) (k : String) (v : ABTestConfig) :
    List (String × ABTestConfig) :=
  if (l.lookup k).isSome then updateVal l k (fun _ => v) else l ++ [(k, v)]

/-- setupABTest (scoreOptimizer.ts lines 107-160): an empty variant list
throws and is caught, returning null with the state untouched; a missing
allocation defaults to an equal split; the allocation is rescaled to total
100 only when its sum is further than 0.001 from 100. -/
def setupABTest (st : ScoreOptimizerState) (testName : String)
    (variants : List ABTestVariant) (allocation : Option (List ℚ)) :
    Option ABTestConfig × ScoreOptimizerState :=
  if variants.isEmpty then (none, st)
  else
    let alloc0 := allocation.getD (List.replicate variants.length (100 / (variants.length : ℚ)))
    let s := alloc0.sum
    let alloc := if 1 / 1000 < |s - 100| then alloc0.map (fun a => a * 100 / s) else alloc0
    let cfg : ABTestConfig :=
      { name := testName, variants := variants, allocation := alloc, status := .active,
        results := fromEntries (variants.map fun v => (v.name, ⟨0, 0⟩)) }
    (some cfg, { st with abTestGroups := setAssoc st.abTestGroups testName cfg })

/-- Per-variant conversion rate of analyzeABTestResults (scoreOptimizer.ts
lines 272-317): conversions / total, fixed at 0 when total = 0. -/
def conversionRate (s : VariantStats) : ℚ :=
  if 0 < s.total then (s.conversions : ℚ) / (s.total : ℚ) else 0

/-- The control/best-performer loop of analyzeABTestResults (scoreOptimizer.ts
lines 320-334): control is the first entry seen; bestPerformer starts null and
bestRate starts 0.0, updated only on a strict rate improvement.  The result is
(control, bestPerformer, bestRate). -/
def findControlBest (results : List (String × VariantStats)) :
    Option String × Option String × ℚ :=
  results.foldl
    (fun acc p =>
      (some (acc.1.getD p.1),
        if acc.2.2 < conversionRate p.2 then some p.1 else acc.2.1,
        if acc.2.2 < conversionRate p.2 then conversionRate p.2 else acc.2.2))
    (none, none, 0)

/-- analyzeABTestResults (scoreOptimizer.ts lines 255-374) reduced to its
observable control/best-performer outcome.  none models the {error: ...}
return: either the test is unknown (throw at line 259), or more than one
variant exists, the control is a known key, and bestPerformer is still null,
so results[bestPerformer] is undefined and calculatePValue throws a TypeError
reading .conversions (lines 343-350, caught at line 370).  The Wilson
intervals and the chi-squared p-value are numeric side outputs that never
feed back into which variant is control or best performer. -/
def analyzeControlBest (st : ScoreOptimizerState) (testName : String) :
    Option (Option String × Option String) :=
  match st.abTestGroups.lookup testName with
  | none => none
  | some cfg =>
    let cb := findControlBest cfg.results
    let controlKnown :=
      match cb.1 with
      | some c => (cfg.results.lookup c).isSome
      | none => false
    if decide (1 < cfg.results.length) && controlKnown then
      match cb.2.1 with
      | none => none
      | some _ => some (cb.1, cb.2.1)
    else some (cb.1, cb.2.1)

open Classical in
/-- calculateCorrelation (scoreOptimizer.ts lines 554-577): population Pearson
correlation with means taken over x.length, and the final division guarded by
denominator === 0.  Real-valued because of Math.sqrt; every caller relevant
here passes equal-length lists, matching the zip. -/
noncomputable def calculateCorrelation (x y : List ℚ) : ℝ :=
  let n : ℚ := (x.length : ℚ)
  let xMean := x.sum / n
  let yMean := y.sum / n
  let covariance := ((x.zip y).map fun p => (p.1 - xMean) * (p.2 - yMean)).sum
  let xVariance := ((x.zip y).map fun p => (p.1 - xMean) * (p.1 - xMean)).sum
  let yVariance := ((x.zip y).map fun p => (p.2 - yMean) * (p.2 - yMean)).sum
  let denominator := Real.sqrt ((xVariance : ℝ) * (yVariance : ℝ))
  if denominator = 0 then 0 else (covariance : ℝ) / denominator

open Classical in
/-- The inline correlation of calculateOptimizedWeights (customerData.ts lines
156-181): each values entry pairs a metric value with the churn probability,
and the coefficient is Math.abs(numerator / denominator) with NO
zero-denominator guard.  A zero denominator produces NaN (0/0) or Infinity
(nonzero over 0) in JS, neither of which is a real number: both are modelled
as none; a nonzero denominator yields some of the finite absolute value. -/
noncomputable def inlineCorrelationAbs (values : List (ℚ × ℚ)) : Option ℝ :=
  let n : ℚ := (values.length : ℚ)
  let sumX := (values.map Prod.fst).sum
  let sumY := (values.map Prod.snd).sum
  let sumXY := (values.map (fun p => p.1 * p.2)).sum
  let sumXX := (values.map (fun p => p.1 * p.1)).sum
  let sumYY := (values.map (fun p => p.2 * p.2)).sum
  let numerator := n * sumXY - sumX * sumY
  let denominator :=
    Real.sqrt (((n * sumXX - sumX * sumX) * (n * sumYY - sumY * sumY) : ℚ) : ℝ)
  if denominator = 0 then none else some |(numerator : ℝ) / denominator|

/-- A concrete test configuration: two variants at a 50/50 allocation with
all-zero counters, used by witnesses and counterexamples below. -/
def cfgT : ABTestConfig :=
  { name := "t",
    variants := [{ name := "A", weights := [] }, { name := "B", weights := [] }],
    allocation := [50, 50],
    status := ABTestStatus.active,
    results := [("A", ⟨0, 0⟩), ("B", ⟨0, 0⟩)] }

/-- A concrete optimizer state holding only the test t above. -/
def stT : ScoreOptimizerState :=
  { featureWeights := [("f", 1)], abTestGroups := [("t", cfgT)] }

/-- The fixture test after one assignment to each variant and one conversion
recorded for B: rate 0 for A, rate 1 for B. -/
def cfgT2 : ABTestConfig :=
  { name := "t",
    variants := [{ name := "A", weights := [] }, { name := "B", weights := [] }],
    allocation := [50, 50],
    status := ABTestStatus.active,
    results := [("A", ⟨0, 1⟩), ("B", ⟨1, 1⟩)] }

/-- A concrete optimizer state holding only the test above. -/
def stT2 : ScoreOptimizerState :=
  { featureWeights := [("f", 1)], abTestGroups := [("t", cfgT2)] }

/-- A reachable misconfigured test: setupABTest accepts one variant with the
two-entry allocation [50, 50] (sum 100, stored unchanged), so every hash
bucket at or above 50 walks to covered index 1, one past the variant list. -/
def cfgHalf : ABTestConfig :=
  { name := "t",
    variants := [{ name := "A", weights := [] }],
    allocation := [50, 50],
    status := ABTestStatus.active,
    results := [("A", ⟨0, 0⟩)] }

/-- The optimizer state right after that setupABTest call on a fresh state. -/
def stHalf : ScoreOptimizerState :=
  { featureWeights := [], abTestGroups := [("t", cfgHalf)] }

/-! Helper lemmas about the association-list primitives. -/

theorem lookup_mem {α : Type} {k : String} {v : α} {l : List (String × α)}
    (h : l.lookup k = some v) : (k, v) ∈ l := by
  induction l with
  | nil => simp [List.lookup] at h
  | cons p rest ih =>
    obtain ⟨a, b⟩ := p
    rw [List.lookup_cons] at h
    by_cases hk : k = a
    · subst hk
      simp only [beq_self_eq_true] at h
      cases h
      exact List.mem_cons_self _ _
    · simp only [beq_eq_false_iff_ne.mpr hk] at h
      exact List.mem_cons_of_mem _ (ih h)

theorem lookup_updateVal_self {α : Type} (l : List (String × α)) (k : String) (f : α → α) :
    (updateVal l k f).lookup k = (l.lookup k).map f := by
  induction l with
  | nil => simp [updateVal, List.lookup]
  | cons p rest ih =>
    obtain ⟨a, b⟩ := p
    by_cases hk : k = a
    · subst hk
      simp [updateVal, List.lookup_cons]
    · simp [updateVal, List.lookup_cons, beq_eq_false_iff_ne.mpr hk, hk, Ne.symm hk] at ih ⊢
      exact ih

theorem lookup_updateVal_ne {α : Type} (l : List (String × α)) {k k2 : String} (f : α → α)
    (h : k2 ≠ k) : (updateVal l k f).lookup k2 = l.lookup k2 := by
  induction l with
  | nil => simp [updateVal]
  | cons p rest ih =>
    obtain ⟨a, b⟩ := p
    by_cases hk : a = k
    · subst hk
      simp [updateVal, List.lookup_cons, beq_eq_false_iff_ne.mpr h] at ih ⊢
      exact ih
    · by_cases hk2 : k2 = a
      · subst hk2
        simp [updateVal, List.lookup_cons, hk]
      · simp [updateVal, List.lookup_cons, hk, beq_eq_false_iff_ne.mpr hk2] at ih ⊢
        exact ih

theorem updateVal_keys {α : Type} (l : List (String × α)) (k : String) (f : α → α) :
    (updateVal l k f).map Prod.fst = l.map Prod.fst := by
  induction l with
  | nil => rfl
  | cons p rest ih =>
    by_cases hk : p.1 = k <;> simp [updateVal, hk] at ih ⊢ <;> exact ih

theorem addToFirst_keys (l : List (String × ℤ)) (k : String) (d : ℤ) :
    (addToFirst l k d).map Prod.fst = l.map Prod.fst := by
  induction l with
  | nil => rfl
  | cons p rest ih =>
    by_cases hk : p.1 = k
    · simp [addToFirst, hk]
    · simp only [addToFirst, hk, if_false, List.map_cons]
      rw [ih]

theorem addToFirst_sum {k : String} {d : ℤ} :
    ∀ {l : List (String × ℤ)}, k ∈ l.map Prod.fst →
      ((addToFirst l k d).map Prod.snd).sum = (l.map Prod.snd).sum + d
  | [], h => by simp at h
  | p :: rest, h => by
    by_cases hk : p.1 = k
    · simp [addToFirst, hk]
      ring
    · have hmem : k ∈ rest.map Prod.fst := by
        rcases List.mem_map.mp h with ⟨q, hq, hqk⟩
        rcases List.mem_cons.mp hq with rfl | hq2
        · exact absurd hqk hk
        · exact List.mem_map.mpr ⟨q, hq2, hqk⟩
      simp [addToFirst, hk, addToFirst_sum hmem]
      ring

theorem addToFirst_getElem? {d : ℤ} {k : String} {w : ℤ} :
    ∀ {l : List (String × ℤ)} {i : ℕ},
      (∀ j, j < i → ∀ q : String × ℤ, l[j]? = some q → q.1 ≠ k) →
      l[i]? = some (k, w) →
      (addToFirst l k d)[i]? = some (k, w + d) ∧
        ∀ j, j ≠ i → (addToFirst l k d)[j]? = l[j]?
  | [], i, _, hp => by simp at hp
  | (a, b) :: rest, 0, _, hp => by
    simp only [List.getElem?_cons_zero, Option.some_inj] at hp
    obtain ⟨rfl, rfl⟩ : a = k ∧ b = w := Prod.mk.injEq .. ▸ Prod.mk.inj hp
    refine ⟨by simp [addToFirst], fun j hj => ?_⟩
    obtain ⟨j2, rfl⟩ := Nat.exists_eq_succ_of_ne_zero hj
    simp [addToFirst]
  | (a, b) :: rest, i + 1, hfirst, hp => by
    have ha : a ≠ k := by
      have := hfirst 0 (Nat.succ_pos i) (a, b) (by simp)
      simpa using this
    have hrec :=
      addToFirst_getElem? (d := d) (l := rest) (i := i)
        (fun j hj q hq => hfirst (j + 1) (Nat.succ_lt_succ hj) q (by simpa using hq))
        (by simpa using hp)
    refine ⟨by simpa [addToFirst, ha] using hrec.1, fun j hj => ?_⟩
    cases j with
    | zero => simp [addToFirst, ha]
    | succ j2 =>
      have := hrec.2 j2 (fun hh => hj (by omega))
      simpa [addToFirst, ha] using this

theorem find?_spec {α : Type} {f : α → Bool} {p : α} :
    ∀ {l : List α}, l.find? f = some p →
      ∃ i : ℕ, l[i]? = some p ∧ f p = true ∧
        ∀ j : ℕ, j < i → ∀ q, l[j]? = some q → f q = false
  | [], h => by simp at h
  | a :: rest, h => by
    by_cases ha : f a = true
    · rw [List.find?_cons] at h
      simp only [ha] at h
      cases h
      exact ⟨0, by simp, ha, fun j hj q => absurd hj (Nat.not_lt_zero j)⟩
    · rw [Bool.not_eq_true] at ha
      rw [List.find?_cons] at h
      simp only [ha] at h
      obtain ⟨i, hi, hfp, hbefore⟩ := find?_spec h
      refine ⟨i + 1, by simpa using hi, hfp, fun j hj q hq => ?_⟩
      cases j with
      | zero =>
        simp only [List.getElem?_cons_zero, Option.some_inj] at hq
        subst hq
        exact ha
      | succ j2 => exact hbefore j2 (by omega) q (by simpa using hq)

theorem nodup_getElem?_inj {β : Type} {a : β} :
    ∀ {l : List β} {i j : ℕ}, l.Nodup → l[i]? = some a → l[j]? = some a → i = j
  | [], i, j, _, hi, _ => by simp at hi
  | b :: rest, 0, 0, _, _, _ => rfl
  | b :: rest, 0, j + 1, hnd, hi, hj => by
    simp only [List.getElem?_cons_zero, Option.some_inj] at hi
    subst hi
    exact absurd (List.getElem?_mem (by simpa using hj)) (by simpa using (List.nodup_cons.mp hnd).1)
  | b :: rest, i + 1, 0, hnd, hi, hj => by
    simp only [List.getElem?_cons_zero, Option.some_inj] at hj
    subst hj
    exact absurd (List.getElem?_mem (by simpa using hi)) (by simpa using (List.nodup_cons.mp hnd).1)
  | b :: rest, i + 1, j + 1, hnd, hi, hj => by
    have := nodup_getElem?_inj (List.nodup_cons.mp hnd).2 (by simpa using hi) (by simpa using hj)
    omega

theorem nodup_keys_ne {α : Type} {l : List (String × α)} (h : (l.map Prod.fst).Nodup)
    {i j : ℕ} {p q : String × α} (hij : i ≠ j) (hp : l[i]? = some p) (hq : l[j]? = some q) :
    p.1 ≠ q.1 := by
  intro hkey
  have hpi : (l.map Prod.fst)[i]? = some p.1 := by simp [List.getElem?_map, hp]
  have hqj : (l.map Prod.fst)[j]? = some p.1 := by simp [List.getElem?_map, hq, hkey]
  exact hij (nodup_getElem?_inj h hpi hqj)

theorem exists_max_snd {α : Type} :
    ∀ {l : List (α × ℤ)}, l ≠ [] → ∃ p ∈ l, ∀ q ∈ l, q.2 ≤ p.2
  | [], h => absurd rfl h
  | a :: rest, _ => by
    rcases List.eq_nil_or_concat rest with rfl | _
    · exact ⟨a, by simp, fun q hq => by simp at hq; simp [hq]⟩
    · rcases rest with _ | ⟨b, rest2⟩
      · exact ⟨a, by simp, fun q hq => by simp at hq; simp [hq]⟩
      · obtain ⟨p, hp, hmax⟩ := exists_max_snd (l := b :: rest2) (by simp)
        by_cases hap : a.2 ≤ p.2
        · refine ⟨p, List.mem_cons_of_mem _ hp, fun q hq => ?_⟩
          rcases List.mem_cons.mp hq with rfl | hq2
          · exact hap
          · exact hmax q hq2
        · refine ⟨a, List.mem_cons_self _ _, fun q hq => ?_⟩
          rcases List.mem_cons.mp hq with rfl | hq2
          · exact le_refl _
          · exact le_trans (hmax q hq2) (le_of_not_le hap)

/-! The Weight Normalizer: residual placement, total, and bounds. -/

theorem roundedWeights_keys (scores : List (String × ℚ)) :
    (roundedWeights scores).map Prod.fst = scores.map Prod.fst := by
  simp [roundedWeights]

theorem roundedWeights_length (scores : List (String × ℚ)) :
    (roundedWeights scores).length = scores.length := by
  simp [roundedWeights]

theorem firstMaxEntry_isSome {l : List (String × ℤ)} (h : l ≠ []) :
    ∃ p, firstMaxEntry l = some p := by
  obtain ⟨p, hp, hmax⟩ := exists_max_snd h
  have hsome : (l.find? (fun p => l.all (fun q => decide (q.2 ≤ p.2)))).isSome := by
    rw [List.find?_isSome]
    exact ⟨p, hp, by simpa [List.all_eq_true] using hmax⟩
  exact Option.isSome_iff_exists.mp hsome

theorem normalize_residual_spec {scores : List (String × ℚ)}
    (hne : scores ≠ []) (hnd : (scores.map Prod.fst).Nodup) :
    ∃ (i : ℕ) (k : String) (w : ℤ),
      (roundedWeights scores)[i]? = some (k, w) ∧
      (∀ q ∈ roundedWeights scores, q.2 ≤ w) ∧
      (∀ j : ℕ, j < i → ∀ q : String × ℤ, (roundedWeights scores)[j]? = some q → q.2 < w) ∧
      (normalizeTo100 scores)[i]? =
        some (k, w + (100 - ((roundedWeights scores).map Prod.snd).sum)) ∧
      ∀ j : ℕ, j ≠ i → (normalizeTo100 scores)[j]? = (roundedWeights scores)[j]? := by
  have hwsne : roundedWeights scores ≠ [] := by
    intro h0
    apply hne
    apply List.eq_nil_of_length_eq_zero
    rw [← roundedWeights_length scores, h0]
    rfl
  obtain ⟨p, hfind⟩ := firstMaxEntry_isSome hwsne
  obtain ⟨i, hi, hpred, hbefore⟩ := find?_spec (p := p) (by simpa [firstMaxEntry] using hfind)
  have hmax : ∀ q ∈ roundedWeights scores, q.2 ≤ p.2 := by
    simpa [List.all_eq_true] using hpred
  have hstrict : ∀ j : ℕ, j < i → ∀ q : String × ℤ,
      (roundedWeights scores)[j]? = some q → q.2 < p.2 := by
    intro j hj q hq
    have hfail := hbefore j hj q hq
    simp only [List.all_eq_false, decide_eq_false_iff_not, not_le] at hfail
    obtain ⟨r, hr, hrq⟩ := hfail
    have hlt : q.2 < r.2 := by simpa using hrq
    exact lt_of_lt_of_le hlt (hmax r hr)
  have hndws : ((roundedWeights scores).map Prod.fst).Nodup := by
    rw [roundedWeights_keys]; exact hnd
  have hkeysbefore : ∀ j : ℕ, j < i → ∀ q : String × ℤ,
      (roundedWeights scores)[j]? = some q → q.1 ≠ p.1 := by
    intro j hj q hq
    exact nodup_keys_ne hndws (Nat.ne_of_lt hj) hq hi
  obtain ⟨k, w⟩ := p
  refine ⟨i, k, w, hi, hmax, hstrict, ?_, ?_⟩ <;>
    by_cases hs : ((roundedWeights scores).map Prod.snd).sum = 100
  · simp only [normalizeTo100, hs, if_pos rfl, hs]
    simpa [hs] using hi
  · have hadd := addToFirst_getElem?
      (d := 100 - ((roundedWeights scores).map Prod.snd).sum) hkeysbefore hi
    simp only [normalizeTo100, if_neg hs, hfind]
    exact hadd.1
  · intro j hj
    simp [normalizeTo100, hs]
  · intro j hj
    have hadd := addToFirst_getElem?
      (d := 100 - ((roundedWeights scores).map Prod.snd).sum) hkeysbefore hi
    simp only [normalizeTo100, if_neg hs, hfind]
    exact hadd.2 j hj

theorem normalizeTo100_sum {scores : List (String × ℚ)} (hne : scores ≠ []) :
    ((normalizeTo100 scores).map Prod.snd).sum = 100 := by
  by_cases hs : ((roundedWeights scores).map Prod.snd).sum = 100
  · simp only [normalizeTo100, if_pos hs]
    exact hs
  · have hwsne : roundedWeights scores ≠ [] := by
      intro h0
      apply hne
      apply List.eq_nil_of_length_eq_zero
      rw [← roundedWeights_length scores, h0]
      rfl
    obtain ⟨p, hfind⟩ := firstMaxEntry_isSome hwsne
    have hp_mem : p ∈ roundedWeights scores :=
      List.mem_of_find?_eq_some (by simpa [firstMaxEntry] using hfind)
    have hk : p.1 ∈ (roundedWeights scores).map Prod.fst :=
      List.mem_map.mpr ⟨p, hp_mem, rfl⟩
    simp only [normalizeTo100, if_neg hs, hfind]
    rw [addToFirst_sum hk]
    ring

theorem roundHalfUp_nonneg {q : ℚ} (h : 0 ≤ q) : 0 ≤ roundHalfUp q :=
  Int.le_floor.mpr (by push_cast; linarith)

theorem roundHalfUp_le (q : ℚ) : (roundHalfUp q : ℚ) ≤ q + 1 / 2 := Int.floor_le _

theorem roundHalfUp_ge (q : ℚ) : q - 1 / 2 ≤ (roundHalfUp q : ℚ) := by
  have h := Int.lt_floor_add_one (q + 1 / 2)
  rw [roundHalfUp]
  linarith

theorem sum_map_div_mul (l : List (String × ℚ)) (T : ℚ) :
    (l.map (fun p => p.2 / T * 100)).sum = (l.map Prod.snd).sum / T * 100 := by
  induction l with
  | nil => simp
  | cons p rest ih =>
    simp only [List.map_cons, List.sum_cons, ih]
    ring

theorem sum_roundHalfUp_le (l : List ℚ) :
    (((l.map roundHalfUp).sum : ℤ) : ℚ) ≤ l.sum + l.length * (1 / 2) := by
  induction l with
  | nil => simp
  | cons a rest ih =>
    simp only [List.map_cons, List.sum_cons, List.length_cons]
    push_cast at ih ⊢
    have h := roundHalfUp_le a
    linarith

theorem sum_roundHalfUp_ge (l : List ℚ) :
    l.sum - l.length * (1 / 2) ≤ (((l.map roundHalfUp).sum : ℤ) : ℚ) := by
  induction l with
  | nil => simp
  | cons a rest ih =>
    simp only [List.map_cons, List.sum_cons, List.length_cons]
    push_cast at ih ⊢
    have h := roundHalfUp_ge a
    linarith

theorem roundedWeights_snd (scores : List (String × ℚ)) :
    (roundedWeights scores).map Prod.snd =
      (scores.map (fun p => p.2 / (scores.map Prod.snd).sum * 100)).map roundHalfUp := by
  simp [roundedWeights, List.map_map]

theorem normalizeTo100_keys (scores : List (String × ℚ)) :
    (normalizeTo100 scores).map Prod.fst = scores.map Prod.fst := by
  by_cases hs : ((roundedWeights scores).map Prod.snd).sum = 100
  · simp only [normalizeTo100, if_pos hs]
    exact roundedWeights_keys scores
  · simp only [normalizeTo100, if_neg hs]
    cases hfind : firstMaxEntry (roundedWeights scores) with
    | none => exact roundedWeights_keys scores
    | some p => rw [addToFirst_keys]; exact roundedWeights_keys scores

theorem scores_ne_nil_of_pos {scores : List (String × ℚ)}
    (hpos : 0 < (scores.map Prod.snd).sum) : scores ≠ [] := by
  intro h
  rw [h] at hpos
  simp at hpos

/-- C6: the Weight Normalizer adds the whole rounding residual
100 - sum(rounded weights) to the single first-encountered feature holding the
maximal rounded weight, and no other feature's weight is changed. -/
theorem residual_to_first_max {scores : List (String × ℚ)}
    (hpos : 0 < (scores.map Prod.snd).sum) (hnd : (scores.map Prod.fst).Nodup) :
    ∃ (i : ℕ) (k : String) (w : ℤ),
      (roundedWeights scores)[i]? = some (k, w) ∧
      (∀ q ∈ roundedWeights scores, q.2 ≤ w) ∧
      (∀ j : ℕ, j < i → ∀ q : String × ℤ, (roundedWeights scores)[j]? = some q → q.2 < w) ∧
      (normalizeTo100 scores)[i]? =
        some (k, w + (100 - ((roundedWeights scores).map Prod.snd).sum)) ∧
      ∀ j : ℕ, j ≠ i → (normalizeTo100 scores)[j]? = (roundedWeights scores)[j]? :=
  normalize_residual_spec (scores_ne_nil_of_pos hpos) hnd

/-- C6 witness: the three-feature map with equal scores; the residual
100 - 99 = 1 lands on the first feature. -/
theorem residual_to_first_max_witness :
    ∃ (i : ℕ) (k : String) (w : ℤ),
      (roundedWeights [("a", (1 : ℚ)), ("b", 1), ("c", 1)])[i]? = some (k, w) ∧
      (∀ q ∈ roundedWeights [("a", (1 : ℚ)), ("b", 1), ("c", 1)], q.2 ≤ w) ∧
      (∀ j : ℕ, j < i → ∀ q : String × ℤ,
        (roundedWeights [("a", (1 : ℚ)), ("b", 1), ("c", 1)])[j]? = some q → q.2 < w) ∧
      (normalizeTo100 [("a", (1 : ℚ)), ("b", 1), ("c", 1)])[i]? =
        some (k, w + (100 -
          ((roundedWeights [("a", (1 : ℚ)), ("b", 1), ("c", 1)]).map Prod.snd).sum)) ∧
      ∀ j : ℕ, j ≠ i →
        (normalizeTo100 [("a", (1 : ℚ)), ("b", 1), ("c", 1)])[j]? =
          (roundedWeights [("a", (1 : ℚ)), ("b", 1), ("c", 1)])[j]? :=
  residual_to_first_max (by norm_num) (by decide)

/-- C1 (amended): over the six fixed features of calculateOptimizedWeights,
every raw-score map with non-negative scores and positive total yields integer
weights that are non-negative and sum to exactly 100. -/
theorem normalizeTo100_sum100_nonneg {scores : List (String × ℚ)}
    (hlen : scores.length = 6)
    (hnn : ∀ p ∈ scores, 0 ≤ p.2)
    (hpos : 0 < (scores.map Prod.snd).sum)
    (hnd : (scores.map Prod.fst).Nodup) :
    ((normalizeTo100 scores).map Prod.snd).sum = 100 ∧
      ∀ p ∈ normalizeTo100 scores, 0 ≤ p.2 := by
  have hne : scores ≠ [] := scores_ne_nil_of_pos hpos
  refine ⟨normalizeTo100_sum hne, ?_⟩
  have hT0 : (scores.map Prod.snd).sum ≠ 0 := ne_of_gt hpos
  have hws_nonneg : ∀ q ∈ roundedWeights scores, 0 ≤ q.2 := by
    intro q hq
    simp only [roundedWeights, List.mem_map] at hq
    obtain ⟨p, hp, rfl⟩ := hq
    refine roundHalfUp_nonneg ?_
    have h1 : 0 ≤ p.2 / (scores.map Prod.snd).sum :=
      div_nonneg (hnn p hp) (le_of_lt hpos)
    linarith
  have hvs_sum : (scores.map (fun p => p.2 / (scores.map Prod.snd).sum * 100)).sum = 100 := by
    rw [sum_map_div_mul, div_self hT0]
    norm_num
  have hvs_len : (scores.map (fun p => p.2 / (scores.map Prod.snd).sum * 100)).length = 6 := by
    simpa using hlen
  have hS_le : ((roundedWeights scores).map Prod.snd).sum ≤ 103 := by
    have h := sum_roundHalfUp_le (scores.map (fun p => p.2 / (scores.map Prod.snd).sum * 100))
    rw [hvs_sum, hvs_len, ← roundedWeights_snd] at h
    have : (((roundedWeights scores).map Prod.snd).sum : ℚ) ≤ 103 := by linarith
    exact_mod_cast this
  have hS_ge : (97 : ℤ) ≤ ((roundedWeights scores).map Prod.snd).sum := by
    have h := sum_roundHalfUp_ge (scores.map (fun p => p.2 / (scores.map Prod.snd).sum * 100))
    rw [hvs_sum, hvs_len, ← roundedWeights_snd] at h
    have : (97 : ℚ) ≤ (((roundedWeights scores).map Prod.snd).sum : ℚ) := by linarith
    exact_mod_cast this
  obtain ⟨i, k, w, hi, hmax, _, hout_i, hout_frame⟩ := normalize_residual_spec hne hnd
  have hS_le_6w : ((roundedWeights scores).map Prod.snd).sum ≤ 6 * w := by
    have hlen_ws : ((roundedWeights scores).map Prod.snd).length = 6 := by
      simpa [roundedWeights_length] using hlen
    have h := List.sum_le_card_nsmul ((roundedWeights scores).map Prod.snd) w
      (by
        intro x hx
        simp only [List.mem_map] at hx
        obtain ⟨q, hq, rfl⟩ := hx
        exact hmax q hq)
    rw [hlen_ws, nsmul_eq_mul] at h
    exact_mod_cast h
  have hres_nonneg : 0 ≤ w + (100 - ((roundedWeights scores).map Prod.snd).sum) := by omega
  intro p hp
  obtain ⟨j, hj⟩ := List.mem_iff_getElem?.mp hp
  by_cases hji : j = i
  · subst hji
    rw [hout_i] at hj
    cases hj
    exact hres_nonneg
  · rw [hout_frame j hji] at hj
    exact hws_nonneg p (List.getElem?_mem hj)

/-- C1 counterexample: the claim admits any real raw scores; this six-feature
map has positive total 100 yet gets the weight -60 for
productUsageFrequency, so the output is not non-negative. -/
theorem normalizeTo100_negative_weight :
    0 < (([("productUsageFrequency", (-60 : ℚ)), ("supportTicketVolume", 160),
        ("featureAdoptionRate", 0), ("npsScore", 0), ("contractValue", 0),
        ("timeSinceLastLogin", 0)].map Prod.snd).sum) ∧
      (normalizeTo100 [("productUsageFrequency", (-60 : ℚ)), ("supportTicketVolume", 160),
        ("featureAdoptionRate", 0), ("npsScore", 0), ("contractValue", 0),
        ("timeSinceLastLogin", 0)]).lookup "productUsageFrequency" = some (-60) ∧
      ((-60 : ℤ) < 0) := by
  have hrw : roundedWeights [("productUsageFrequency", (-60 : ℚ)), ("supportTicketVolume", 160),
      ("featureAdoptionRate", 0), ("npsScore", 0), ("contractValue", 0),
      ("timeSinceLastLogin", 0)] =
      [("productUsageFrequency", (-60 : ℤ)), ("supportTicketVolume", 160),
        ("featureAdoptionRate", 0), ("npsScore", 0), ("contractValue", 0),
        ("timeSinceLastLogin", 0)] := by
    norm_num [roundedWeights, roundHalfUp]
  refine ⟨by norm_num, ?_, by norm_num⟩
  rw [normalizeTo100, hrw]
  norm_num [List.lookup]

/-- C1 witness (for the amended statement): six equal scores of 1. -/
theorem normalizeTo100_sum100_nonneg_witness :
    ((normalizeTo100 [("productUsageFrequency", (1 : ℚ)), ("supportTicketVolume", 1),
        ("featureAdoptionRate", 1), ("npsScore", 1), ("contractValue", 1),
        ("timeSinceLastLogin", 1)]).map Prod.snd).sum = 100 ∧
      ∀ p ∈ normalizeTo100 [("productUsageFrequency", (1 : ℚ)), ("supportTicketVolume", 1),
        ("featureAdoptionRate", 1), ("npsScore", 1), ("contractValue", 1),
        ("timeSinceLastLogin", 1)], 0 ≤ p.2 :=
  normalizeTo100_sum100_nonneg (by decide) (by norm_num) (by norm_num) (by decide)

/-! The Health Score Calculator. -/

theorem lookup_map_const {α : Type} {k : String} {c : ℚ} :
    ∀ {l : List (String × α)}, k ∈ l.map Prod.fst →
      (l.map (fun p => (p.1, c))).lookup k = some c
  | [], h => by simp at h
  | (a, b) :: rest, h => by
    by_cases hk : k = a
    · subst hk
      simp [List.lookup_cons]
    · have hmem : k ∈ rest.map Prod.fst := by
        simpa [hk] using h
      simpa [List.lookup_cons, beq_eq_false_iff_ne.mpr hk] using lookup_map_const hmem

theorem sum_cast_int (l : List ℤ) :
    ((l.sum : ℤ) : ℚ) = (l.map (fun z : ℤ => (z : ℚ))).sum := by
  induction l with
  | nil => simp
  | cons a rest ih => simp [ih]

theorem healthAccum_ones {record : List (String × ℚ)} :
    ∀ (weights : List (String × ℚ)),
      (∀ p ∈ weights, record.lookup p.1 = some 1) →
      (∀ p ∈ weights, isInvertedFeature p.1 = false) →
      ∀ acc : ℚ × ℚ,
        weights.foldl
          (fun acc fw =>
            match record.lookup fw.1 with
            | none => acc
            | some value => (acc.1 + normalizedValue fw.1 value * fw.2, acc.2 + fw.2)) acc =
        (acc.1 + (weights.map Prod.snd).sum, acc.2 + (weights.map Prod.snd).sum)
  | [], _, _, acc => by simp
  | fw :: rest, hfound, hninv, acc => by
    have h1 : record.lookup fw.1 = some 1 := hfound fw (List.mem_cons_self _ _)
    have h2 : normalizedValue fw.1 1 = 1 := by
      simp [normalizedValue, hninv fw (List.mem_cons_self _ _)]
    simp only [List.foldl_cons, h1, h2, one_mul]
    rw [healthAccum_ones rest (fun p hp => hfound p (List.mem_cons_of_mem _ hp))
      (fun p hp => hninv p (List.mem_cons_of_mem _ hp))]
    simp only [List.map_cons, List.sum_cons, Prod.mk.injEq]
    constructor <;> ring

/-- C9: weights produced by the Weight Normalizer, fed to the Health Score
Calculator on a record where every one of those features equals 1 and no
feature name matches an inverted marker, yield exactly 100. -/
theorem roundtrip_weights_health_100 {scores : List (String × ℚ)}
    (hpos : 0 < (scores.map Prod.snd).sum)
    (hinv : ∀ p ∈ scores, isInvertedFeature p.1 = false) :
    calculateHealthScore
      ((normalizeTo100 scores).map (fun p => (p.1, (1 : ℚ))))
      ((normalizeTo100 scores).map (fun p => (p.1, (p.2 : ℚ)))) = 100 := by
  have hne : scores ≠ [] := scores_ne_nil_of_pos hpos
  have hsum : ((normalizeTo100 scores).map Prod.snd).sum = 100 := normalizeTo100_sum hne
  have hkeys := normalizeTo100_keys scores
  have hfound : ∀ p ∈ (normalizeTo100 scores).map (fun p => (p.1, (p.2 : ℚ))),
      ((normalizeTo100 scores).map (fun p => (p.1, (1 : ℚ)))).lookup p.1 = some 1 := by
    intro p hp
    apply lookup_map_const
    simp only [List.mem_map] at hp
    obtain ⟨q, hq, rfl⟩ := hp
    exact List.mem_map.mpr ⟨q, hq, rfl⟩
  have hninv : ∀ p ∈ (normalizeTo100 scores).map (fun p => (p.1, (p.2 : ℚ))),
      isInvertedFeature p.1 = false := by
    intro p hp
    simp only [List.mem_map] at hp
    obtain ⟨q, hq, rfl⟩ := hp
    have hqk : q.1 ∈ scores.map Prod.fst := by
      rw [← hkeys]
      exact List.mem_map.mpr ⟨q, hq, rfl⟩
    obtain ⟨r, hr, hrq⟩ := List.mem_map.mp hqk
    rw [← hrq]
    exact hinv r hr
  have hwsum : (((normalizeTo100 scores).map (fun p => (p.1, (p.2 : ℚ)))).map Prod.snd).sum
      = 100 := by
    have : ((normalizeTo100 scores).map (fun p => (p.1, (p.2 : ℚ)))).map Prod.snd
        = ((normalizeTo100 scores).map Prod.snd).map (fun z : ℤ => (z : ℚ)) := by
      rw [List.map_map, List.map_map]
      rfl
    rw [this, ← sum_cast_int, hsum]
    norm_num
  rw [calculateHealthScore, healthAccum]
  rw [healthAccum_ones _ hfound hninv (0, 0)]
  rw [hwsum]
  norm_num

/-- C9 witness: six unit scores over the real feature names, none of which
matches an inverted marker. -/
theorem roundtrip_weights_health_100_witness :
    calculateHealthScore
      ((normalizeTo100 [("productUsageFrequency", (1 : ℚ)), ("supportTicketVolume", 1),
          ("featureAdoptionRate", 1), ("npsScore", 1), ("contractValue", 1),
          ("timeSinceLastLogin", 1)]).map (fun p => (p.1, (1 : ℚ))))
      ((normalizeTo100 [("productUsageFrequency", (1 : ℚ)), ("supportTicketVolume", 1),
          ("featureAdoptionRate", 1), ("npsScore", 1), ("contractValue", 1),
          ("timeSinceLastLogin", 1)]).map (fun p => (p.1, (p.2 : ℚ)))) = 100 :=
  roundtrip_weights_health_100 (by norm_num) (by decide)

theorem healthAccum_fold_bounds {customerData : List (String × ℚ)}
    (hv : ∀ p ∈ customerData, 0 ≤ normalizedValue p.1 p.2 ∧ normalizedValue p.1 p.2 ≤ 1) :
    ∀ (weights : List (String × ℚ)), (∀ p ∈ weights, 0 ≤ p.2) →
      ∀ acc : ℚ × ℚ, 0 ≤ acc.1 → acc.1 ≤ acc.2 →
        0 ≤ (weights.foldl
          (fun acc fw =>
            match customerData.lookup fw.1 with
            | none => acc
            | some value => (acc.1 + normalizedValue fw.1 value * fw.2, acc.2 + fw.2)) acc).1 ∧
          (weights.foldl
            (fun acc fw =>
              match customerData.lookup fw.1 with
              | none => acc
              | some value => (acc.1 + normalizedValue fw.1 value * fw.2, acc.2 + fw.2)) acc).1 ≤
          (weights.foldl
            (fun acc fw =>
              match customerData.lookup fw.1 with
              | none => acc
              | some value => (acc.1 + normalizedValue fw.1 value * fw.2, acc.2 + fw.2)) acc).2
  | [], _, acc, h1, h2 => ⟨h1, h2⟩
  | fw :: rest, hw, acc, h1, h2 => by
    simp only [List.foldl_cons]
    cases hl : customerData.lookup fw.1 with
    | none =>
      simp only [hl]
      exact healthAccum_fold_bounds hv rest
        (fun p hp => hw p (List.mem_cons_of_mem _ hp)) acc h1 h2
    | some v =>
      simp only [hl]
      have hvv := hv (fw.1, v) (lookup_mem hl)
      have hw0 := hw fw (List.mem_cons_self _ _)
      have hprod : 0 ≤ normalizedValue fw.1 v * fw.2 := mul_nonneg hvv.1 hw0
      have hle : normalizedValue fw.1 v * fw.2 ≤ fw.2 := by nlinarith [hvv.2, hw0]
      exact healthAccum_fold_bounds hv rest
        (fun p hp => hw p (List.mem_cons_of_mem _ hp))
        (acc.1 + normalizedValue fw.1 v * fw.2, acc.2 + fw.2)
        (by simp only []; linarith) (by simp only []; linarith)

/-- C3: with non-negative weights and record values whose inverted-adjusted
values lie in [0,1], calculateHealthScore lies in [0,100]; and whenever the
accumulated weight over shared features is 0 (for instance with no shared
feature at all) the score is exactly the fallback 50. -/
theorem calculateHealthScore_bounds {customerData weights : List (String × ℚ)}
    (hw : ∀ p ∈ weights, 0 ≤ p.2)
    (hv : ∀ p ∈ customerData, 0 ≤ normalizedValue p.1 p.2 ∧ normalizedValue p.1 p.2 ≤ 1) :
    (0 ≤ calculateHealthScore customerData weights ∧
      calculateHealthScore customerData weights ≤ 100) ∧
      ((healthAccum customerData weights).2 = 0 →
        calculateHealthScore customerData weights = 50) := by
  have hacc := healthAccum_fold_bounds hv weights hw (0, 0) (le_refl 0) (le_refl 0)
  rw [calculateHealthScore]
  constructor
  · by_cases hpos2 : 0 < (healthAccum customerData weights).2
    · rw [if_pos hpos2]
      have h1 : 0 ≤ (healthAccum customerData weights).1 := hacc.1
      have h2 : (healthAccum customerData weights).1 ≤ (healthAccum customerData weights).2 :=
        hacc.2
      constructor
      · positivity
      · have hdiv : (healthAccum customerData weights).1 / (healthAccum customerData weights).2
            ≤ 1 := (div_le_one hpos2).mpr h2
        linarith
    · rw [if_neg hpos2]
      norm_num
  · intro hzero
    rw [if_neg (by rw [hzero]; exact lt_irrefl 0)]

/-- C3 witness: the record shares no feature with the weight map, so the
accumulated weight is 0 and the score is the fallback 50, inside [0,100]. -/
theorem calculateHealthScore_bounds_witness :
    (0 ≤ calculateHealthScore [("c", (1 : ℚ))] [("a", (50 : ℚ))] ∧
      calculateHealthScore [("c", (1 : ℚ))] [("a", (50 : ℚ))] ≤ 100) ∧
      calculateHealthScore [("c", (1 : ℚ))] [("a", (50 : ℚ))] = 50 := by
  have h := @calculateHealthScore_bounds [("c", (1 : ℚ))] [("a", (50 : ℚ))]
    (by
      intro p hp
      simp only [List.mem_singleton] at hp
      subst hp
      norm_num)
    (by
      intro p hp
      simp only [List.mem_singleton] at hp
      subst hp
      norm_num [normalizedValue, (by decide : isInvertedFeature "c" = false)])
  refine ⟨h.1, h.2 ?_⟩
  norm_num [healthAccum, List.lookup, (by decide : ("a" == "c") = false)]

/-! The A/B Test Manager. -/

/-- C2: A/B assignment is deterministic: a second assignVariant call with the
same test name and customer id returns the same variant as the first, although
the first call may have incremented the returned variant's total counter. -/
theorem assignVariant_deterministic (st : ScoreOptimizerState) (testName customerId : String) :
    (assignVariant (assignVariant st testName customerId).2 testName customerId).1 =
      (assignVariant st testName customerId).1 := by
  cases hlook : st.abTestGroups.lookup testName with
  | none => simp only [assignVariant, hlook]
  | some cfg =>
    cases hidx : findAllocIdx cfg.allocation
        ((hashPct (customerId ++ ":" ++ testName) : ℚ)) 0 0 with
    | none => simp only [assignVariant, hlook, hidx]
    | some i =>
      cases hv : cfg.variants.get? i with
      | none => simp only [assignVariant, hlook, hidx, hv]
      | some v =>
        cases hr : cfg.results.lookup v.name with
        | none => simp only [assignVariant, hlook, hidx, hv, hr]
        | some r =>
          have hlook2 := lookup_updateVal_self st.abTestGroups testName
            (fun c =>
              { c with
                  results := updateVal c.results v.name (fun rr =>
                    { rr with total := rr.total + 1 }) })
          rw [hlook, Option.map_some'] at hlook2
          have hr2 := lookup_updateVal_self cfg.results v.name
            (fun rr => { rr with total := rr.total + 1 })
          rw [hr, Option.map_some'] at hr2
          simp only [assignVariant, hlook, hidx, hv, hr, hlook2, hr2]

/-- C10 (amended): for an existing test, a covered percentile bucket bumps
exactly the returned variant's total counter (leaving every other counter,
every other test, the allocation, the variant list, the status and the
feature weights unchanged) only when the covered index designates an existing
variant whose name is a key of the results object.  When the covered index
lies past the variant list (an allocation longer than the variant list), the
TypeError on reading .name of undefined is caught and variant 0 (or the
default pseudo-variant, for an empty variant list) is returned with the state
untouched; when the variant's name is missing from the results object, the
TypeError on reading .total is caught and variant 0 is returned with the
state untouched; an uncovered bucket returns variant 0 with the state
untouched. -/
theorem assignVariant_frame (st : ScoreOptimizerState) (testName customerId : String)
    (cfg : ABTestConfig) (hlook : st.abTestGroups.lookup testName = some cfg) :
    (∀ (i : ℕ) (v : ABTestVariant) (r : VariantStats),
      findAllocIdx cfg.allocation ((hashPct (customerId ++ ":" ++ testName) : ℚ)) 0 0 =
          some i →
      cfg.variants.get? i = some v →
      cfg.results.lookup v.name = some r →
      (assignVariant st testName customerId).1 = some v ∧
        (assignVariant st testName customerId).2.featureWeights = st.featureWeights ∧
        (∀ t2, t2 ≠ testName →
          (assignVariant st testName customerId).2.abTestGroups.lookup t2 =
            st.abTestGroups.lookup t2) ∧
        ∃ cfg2,
          (assignVariant st testName customerId).2.abTestGroups.lookup testName = some cfg2 ∧
            cfg2.name = cfg.name ∧ cfg2.variants = cfg.variants ∧
            cfg2.allocation = cfg.allocation ∧ cfg2.status = cfg.status ∧
            cfg2.results.lookup v.name = some { r with total := r.total + 1 } ∧
            ∀ w, w ≠ v.name → cfg2.results.lookup w = cfg.results.lookup w) ∧
      (∀ i : ℕ,
        findAllocIdx cfg.allocation ((hashPct (customerId ++ ":" ++ testName) : ℚ)) 0 0 =
            some i →
        cfg.variants.get? i = none →
        assignVariant st testName customerId =
          ((if cfg.variants.isEmpty then some (defaultVariant st) else cfg.variants.get? 0),
            st)) ∧
      (∀ (i : ℕ) (v : ABTestVariant),
        findAllocIdx cfg.allocation ((hashPct (customerId ++ ":" ++ testName) : ℚ)) 0 0 =
            some i →
        cfg.variants.get? i = some v →
        cfg.results.lookup v.name = none →
        assignVariant st testName customerId = (cfg.variants.get? 0, st)) ∧
      (findAllocIdx cfg.allocation ((hashPct (customerId ++ ":" ++ testName) : ℚ)) 0 0 =
          none →
        assignVariant st testName customerId = (cfg.variants.get? 0, st)) := by
  refine ⟨?_, ?_, ?_, ?_⟩
  · intro i v r hidx hv hr
    have hassign : assignVariant st testName customerId =
        (some v,
          { st with
              abTestGroups :=
                updateVal st.abTestGroups testName (fun c =>
                  { c with
                      results := updateVal c.results v.name (fun rr =>
                        { rr with total := rr.total + 1 }) }) }) := by
      simp only [assignVariant, hlook, hidx, hv, hr]
    rw [hassign]
    dsimp only
    refine ⟨rfl, rfl, ?_, ?_⟩
    · intro t2 ht2
      exact lookup_updateVal_ne st.abTestGroups _ ht2
    · refine ⟨{ cfg with
          results := updateVal cfg.results v.name (fun rr =>
            { rr with total := rr.total + 1 }) }, ?_, rfl, rfl, rfl, rfl, ?_, ?_⟩
      · show (updateVal st.abTestGroups testName _).lookup testName = _
        rw [lookup_updateVal_self, hlook, Option.map_some']
      · dsimp only
        rw [lookup_updateVal_self, hr, Option.map_some']
      · intro w hw
        dsimp only
        exact lookup_updateVal_ne cfg.results _ hw
  · intro i hidx hv
    simp only [assignVariant, hlook, hidx, hv]
  · intro i v hidx hv hr
    simp only [assignVariant, hlook, hidx, hv, hr]
  · intro hidx
    simp only [assignVariant, hlook, hidx]

set_option maxRecDepth 4000 in
/-- C10 witness: in the fixture state, customer cust_1 hashes to bucket 51,
landing on variant B, whose total counter alone is bumped. -/
theorem assignVariant_frame_witness :
    (assignVariant stT "t" "cust_1").1 = some { name := "B", weights := [] } ∧
      ((assignVariant stT "t" "cust_1").2.abTestGroups.lookup "t").isSome ∧
      ∀ cfg2, (assignVariant stT "t" "cust_1").2.abTestGroups.lookup "t" = some cfg2 →
        cfg2.results.lookup "B" = some ⟨0, 1⟩ ∧ cfg2.results.lookup "A" = some ⟨0, 0⟩ := by
  have hlook : stT.abTestGroups.lookup "t" = some cfgT := by
    simp [stT, List.lookup]
  have hpct : hashPct ("cust_1" ++ ":" ++ "t") = 51 := by decide
  have hidx : findAllocIdx cfgT.allocation ((hashPct ("cust_1" ++ ":" ++ "t") : ℚ)) 0 0 =
      some 1 := by
    rw [hpct]
    norm_num [findAllocIdx, cfgT]
  have h := (assignVariant_frame stT "t" "cust_1" cfgT hlook).1 1
    { name := "B", weights := [] } ⟨0, 0⟩ hidx (by simp [cfgT]) (by simp [cfgT, List.lookup])
  obtain ⟨h1, _, _, cfg2, hc2, _, _, _, _, hres, hother⟩ := h
  refine ⟨h1, by rw [hc2]; rfl, ?_⟩
  intro c hc
  rw [hc2] at hc
  cases hc
  exact ⟨hres, by simpa using hother "A" (by decide)⟩

set_option maxRecDepth 4000 in
/-- C10 counterexample: the original claim says every covered bucket
increments the returned variant's total counter by one.  But setupABTest
accepts one variant with the allocation [50, 50] (sum 100, stored unchanged),
producing the state stHalf, and customer cust_1 hashes to bucket 51, covered
at index 1, one past the variant list: the TypeError on reading .name of
undefined is caught and variant 0 is returned with the state (hence every
counter) unchanged. -/
theorem assignVariant_covered_no_increment :
    (setupABTest { featureWeights := [], abTestGroups := [] } "t"
        [{ name := "A", weights := [] }] (some [50, 50])).2 = stHalf ∧
      findAllocIdx cfgHalf.allocation ((hashPct ("cust_1" ++ ":" ++ "t") : ℚ)) 0 0 =
        some 1 ∧
      assignVariant stHalf "t" "cust_1" =
        (some { name := "A", weights := [] }, stHalf) := by
  have hpct : hashPct ("cust_1" ++ ":" ++ "t") = 51 := by decide
  have hidx : findAllocIdx cfgHalf.allocation
      ((hashPct ("cust_1" ++ ":" ++ "t") : ℚ)) 0 0 = some 1 := by
    rw [hpct]
    norm_num [findAllocIdx, cfgHalf]
  refine ⟨?_, hidx, ?_⟩
  · have hcond : ¬ (1 / 1000 : ℚ) < |List.sum [(50 : ℚ), 50] - 100| := by
      norm_num [List.sum_cons, List.sum_nil]
    simp only [setupABTest, List.isEmpty_cons, Bool.false_eq_true, if_false,
      Option.getD_some, if_neg hcond]
    rfl
  · have hlook : stHalf.abTestGroups.lookup "t" = some cfgHalf := by
      simp [stHalf, List.lookup]
    simp only [assignVariant, hlook, hidx]
    rfl

/-- C8: recordConversion returns false exactly when the test or the variant is
unknown (it never throws, the Lean model is total), and a false return leaves
the optimizer state unchanged. -/
theorem recordConversion_false_iff (st : ScoreOptimizerState)
    (testName variantName : String) (converted : Bool) :
    ((recordConversion st testName variantName converted).1 = false ↔
      st.abTestGroups.lookup testName = none ∨
        ∃ cfg, st.abTestGroups.lookup testName = some cfg ∧
          cfg.results.lookup variantName = none) ∧
      ((recordConversion st testName variantName converted).1 = false →
        (recordConversion st testName variantName converted).2 = st) := by
  cases hlook : st.abTestGroups.lookup testName with
  | none =>
    have heq : recordConversion st testName variantName converted = (false, st) := by
      simp only [recordConversion, hlook]
    rw [heq]
    exact ⟨iff_of_true rfl (Or.inl rfl), fun _ => rfl⟩
  | some cfg =>
    cases hr : cfg.results.lookup variantName with
    | none =>
      have heq : recordConversion st testName variantName converted = (false, st) := by
        simp only [recordConversion, hlook, hr]
      rw [heq]
      exact ⟨iff_of_true rfl (Or.inr ⟨cfg, rfl, hr⟩), fun _ => rfl⟩
    | some r =>
      have h1 : (recordConversion st testName variantName converted).1 = true := by
        cases converted <;> simp [recordConversion, hlook, hr]
      constructor
      · rw [h1]
        refine ⟨fun h => Bool.noConfusion h, fun h => ?_⟩
        exfalso
        rcases h with h | ⟨cfg2, hc2, hr2⟩
        · exact Option.noConfusion h
        · injection hc2 with hc2
          subst hc2
          rw [hr] at hr2
          exact Option.noConfusion hr2
      · intro h
        rw [h1] at h
        exact Bool.noConfusion h

theorem find?_congr {α : Type} {f g : α → Bool} :
    ∀ {l : List α}, (∀ a ∈ l, f a = g a) → l.find? f = l.find? g
  | [], _ => rfl
  | a :: rest, h => by
    have ha := h a (List.mem_cons_self _ _)
    by_cases hg : g a = true
    · rw [List.find?_cons, List.find?_cons, ha, hg]
    · rw [Bool.not_eq_true] at hg
      rw [List.find?_cons, List.find?_cons, ha, hg]
      exact find?_congr fun b hb => h b (List.mem_cons_of_mem _ hb)

theorem cbFold_control_some {c : String} :
    ∀ (l : List (String × VariantStats)) (b : Option String) (r : ℚ),
      (l.foldl
        (fun acc p =>
          (some (acc.1.getD p.1),
            if acc.2.2 < conversionRate p.2 then some p.1 else acc.2.1,
            if acc.2.2 < conversionRate p.2 then conversionRate p.2 else acc.2.2))
        (some c, b, r)).1 = some c
  | [], b, r => rfl
  | p :: rest, b, r => by
    simp only [List.foldl_cons, Option.getD_some]
    exact cbFold_control_some rest _ _

theorem cbFold_best_indep :
    ∀ (l : List (String × VariantStats)) (c1 c2 : Option String) (b : Option String) (r : ℚ),
      (l.foldl
        (fun acc p =>
          (some (acc.1.getD p.1),
            if acc.2.2 < conversionRate p.2 then some p.1 else acc.2.1,
            if acc.2.2 < conversionRate p.2 then conversionRate p.2 else acc.2.2))
        (c1, b, r)).2 =
      (l.foldl
        (fun acc p =>
          (some (acc.1.getD p.1),
            if acc.2.2 < conversionRate p.2 then some p.1 else acc.2.1,
            if acc.2.2 < conversionRate p.2 then conversionRate p.2 else acc.2.2))
        (c2, b, r)).2
  | [], c1, c2, b, r => rfl
  | p :: rest, c1, c2, b, r => by
    simp only [List.foldl_cons]
    exact cbFold_best_indep rest _ _ _ _

theorem cbFold_best_all_le :
    ∀ (l : List (String × VariantStats)) (c : Option String) (b : Option String) (r : ℚ),
      (∀ p ∈ l, conversionRate p.2 ≤ r) →
      (l.foldl
        (fun acc p =>
          (some (acc.1.getD p.1),
            if acc.2.2 < conversionRate p.2 then some p.1 else acc.2.1,
            if acc.2.2 < conversionRate p.2 then conversionRate p.2 else acc.2.2))
        (c, b, r)).2 = (b, r)
  | [], c, b, r, _ => rfl
  | p :: rest, c, b, r, h => by
    simp only [List.foldl_cons]
    rw [if_neg (not_lt.mpr (h p (List.mem_cons_self _ _))),
      if_neg (not_lt.mpr (h p (List.mem_cons_self _ _)))]
    exact cbFold_best_all_le rest _ b r (fun q hq => h q (List.mem_cons_of_mem _ hq))

theorem cbFold_best_exists :
    ∀ (l : List (String × VariantStats)) (c : Option String) (b : Option String) (r : ℚ),
      (∃ p ∈ l, r < conversionRate p.2) →
      ((l.foldl
        (fun acc p =>
          (some (acc.1.getD p.1),
            if acc.2.2 < conversionRate p.2 then some p.1 else acc.2.1,
            if acc.2.2 < conversionRate p.2 then conversionRate p.2 else acc.2.2))
        (c, b, r)).2.1 =
      (l.find? (fun p => decide (r < conversionRate p.2) &&
        l.all (fun q => decide (conversionRate q.2 ≤ conversionRate p.2)))).map Prod.fst)
  | [], c, b, r, hex => by simp at hex
  | p :: rest, c, b, r, hex => by
    simp only [List.foldl_cons]
    by_cases hp : r < conversionRate p.2
    · rw [if_pos hp, if_pos hp]
      by_cases hall : ∀ q ∈ rest, conversionRate q.2 ≤ conversionRate p.2
      · rw [cbFold_best_all_le rest _ _ _ hall]
        have hpred : (decide (r < conversionRate p.2) &&
            (p :: rest).all (fun q =>
              decide (conversionRate q.2 ≤ conversionRate p.2))) = true := by
          simp only [Bool.and_eq_true, decide_eq_true_eq, List.all_eq_true]
          exact ⟨hp, fun q hq => by
            rcases List.mem_cons.mp hq with rfl | hq2
            · exact le_refl _
            · exact hall q hq2⟩
        rw [List.find?_cons, hpred]
        rfl
      · push_neg at hall
        obtain ⟨q0, hq0, hq0lt⟩ := hall
        have hrec := cbFold_best_exists rest (some (c.getD p.1)) (some p.1)
          (conversionRate p.2) ⟨q0, hq0, hq0lt⟩
        rw [hrec]
        have hpred : (decide (r < conversionRate p.2) &&
            (p :: rest).all (fun q =>
              decide (conversionRate q.2 ≤ conversionRate p.2))) = false := by
          simp only [Bool.and_eq_false_iff, List.all_eq_false]
          right
          exact ⟨q0, List.mem_cons_of_mem _ hq0, by simpa using not_le.mpr hq0lt⟩
        rw [List.find?_cons, hpred]
        refine congrArg (Option.map Prod.fst) (find?_congr ?_)
        intro a ha
        by_cases hrest : ∀ q ∈ rest, conversionRate q.2 ≤ conversionRate a.2
        · have h1 : conversionRate p.2 < conversionRate a.2 :=
            lt_of_lt_of_le hq0lt (hrest q0 hq0)
          have h2 : r < conversionRate a.2 := lt_trans hp h1
          have hLa : (rest.all fun q =>
              decide (conversionRate q.2 ≤ conversionRate a.2)) = true := by
            simp only [List.all_eq_true, decide_eq_true_eq]
            exact hrest
          have hPa : ((p :: rest).all fun q =>
              decide (conversionRate q.2 ≤ conversionRate a.2)) = true := by
            simp only [List.all_eq_true, decide_eq_true_eq]
            intro q hq
            rcases List.mem_cons.mp hq with rfl | hq2
            · exact le_of_lt h1
            · exact hrest q hq2
          rw [hLa, hPa]
          simp [h1, h2]
        · push_neg at hrest
          obtain ⟨q1, hq1, hq1lt⟩ := hrest
          have hfa : (rest.all fun q =>
              decide (conversionRate q.2 ≤ conversionRate a.2)) = false := by
            simp only [List.all_eq_false]
            exact ⟨q1, hq1, by simpa using not_le.mpr hq1lt⟩
          have hfa2 : ((p :: rest).all fun q =>
              decide (conversionRate q.2 ≤ conversionRate a.2)) = false := by
            simp only [List.all_eq_false] at hfa ⊢
            obtain ⟨q2, hq2, hq2f⟩ := hfa
            exact ⟨q2, List.mem_cons_of_mem _ hq2, hq2f⟩
          rw [hfa, hfa2]
          simp
    · rw [if_neg hp, if_neg hp]
      have hexr : ∃ q ∈ rest, r < conversionRate q.2 := by
        obtain ⟨q0, hq0, hq0r⟩ := hex
        rcases List.mem_cons.mp hq0 with rfl | hq02
        · exact absurd hq0r hp
        · exact ⟨q0, hq02, hq0r⟩
      rw [cbFold_best_exists rest _ b r hexr]
      have hpred : (decide (r < conversionRate p.2) &&
          (p :: rest).all (fun q =>
            decide (conversionRate q.2 ≤ conversionRate p.2))) = false := by
        simp [hp]
      rw [List.find?_cons, hpred]
      refine congrArg (Option.map Prod.fst) (find?_congr ?_)
      intro a ha
      by_cases hra : r < conversionRate a.2
      · by_cases hrest : ∀ q ∈ rest, conversionRate q.2 ≤ conversionRate a.2
        · have hpa : conversionRate p.2 ≤ conversionRate a.2 :=
            le_trans (not_lt.mp hp) (le_of_lt hra)
          have hLa : (rest.all fun q =>
              decide (conversionRate q.2 ≤ conversionRate a.2)) = true := by
            simp only [List.all_eq_true, decide_eq_true_eq]
            exact hrest
          have hPa : ((p :: rest).all fun q =>
              decide (conversionRate q.2 ≤ conversionRate a.2)) = true := by
            simp only [List.all_eq_true, decide_eq_true_eq]
            intro q hq
            rcases List.mem_cons.mp hq with rfl | hq2
            · exact hpa
            · exact hrest q hq2
          rw [hLa, hPa]
        · push_neg at hrest
          obtain ⟨q1, hq1, hq1lt⟩ := hrest
          have hfa : (rest.all fun q =>
              decide (conversionRate q.2 ≤ conversionRate a.2)) = false := by
            simp only [List.all_eq_false]
            exact ⟨q1, hq1, by simpa using not_le.mpr hq1lt⟩
          have hfa2 : ((p :: rest).all fun q =>
              decide (conversionRate q.2 ≤ conversionRate a.2)) = false := by
            simp only [List.all_eq_false] at hfa ⊢
            obtain ⟨q2, hq2, hq2f⟩ := hfa
            exact ⟨q2, List.mem_cons_of_mem _ hq2, hq2f⟩
          rw [hfa, hfa2]
      · have hd : decide (r < conversionRate a.2) = false := by simpa using hra
        rw [hd]
        simp

theorem findControlBest_eq (l : List (String × VariantStats)) :
    findControlBest l =
      l.foldl
        (fun acc p =>
          (some (acc.1.getD p.1),
            if acc.2.2 < conversionRate p.2 then some p.1 else acc.2.1,
            if acc.2.2 < conversionRate p.2 then conversionRate p.2 else acc.2.2))
        (none, none, 0) := rfl

theorem findControlBest_control (p : String × VariantStats)
    (rest : List (String × VariantStats)) :
    (findControlBest (p :: rest)).1 = some p.1 := by
  rw [findControlBest_eq]
  simp only [List.foldl_cons, Option.getD_none]
  exact cbFold_control_some rest _ _

theorem exists_max_rate :
    ∀ {l : List (String × VariantStats)}, l ≠ [] →
      ∃ p ∈ l, ∀ q ∈ l, conversionRate q.2 ≤ conversionRate p.2
  | [], h => absurd rfl h
  | a :: rest, _ => by
    rcases rest with _ | ⟨b, rest2⟩
    · exact ⟨a, by simp, fun q hq => by simp at hq; simp [hq]⟩
    · obtain ⟨p, hp, hmax⟩ := exists_max_rate (l := b :: rest2) (by simp)
      by_cases hap : conversionRate a.2 ≤ conversionRate p.2
      · refine ⟨p, List.mem_cons_of_mem _ hp, fun q hq => ?_⟩
        rcases List.mem_cons.mp hq with rfl | hq2
        · exact hap
        · exact hmax q hq2
      · refine ⟨a, List.mem_cons_self _ _, fun q hq => ?_⟩
        rcases List.mem_cons.mp hq with rfl | hq2
        · exact le_refl _
        · exact le_trans (hmax q hq2) (le_of_not_le hap)

theorem analyzeControlBest_of_best_some {st : ScoreOptimizerState} {testName : String}
    {cfg : ABTestConfig} {bname : String}
    (hlook : st.abTestGroups.lookup testName = some cfg)
    (hb : (findControlBest cfg.results).2.1 = some bname) :
    analyzeControlBest st testName =
      some ((findControlBest cfg.results).1, some bname) := by
  simp only [analyzeControlBest, hlook, hb]
  split <;> rfl

/-- C4 (amended): for an existing test, the control is the first-configured
variant; when some variant has a positive conversion rate, the best performer
is the first-encountered variant holding the maximal (positive) rate and the
analysis returns normally; when every conversion rate is 0, bestPerformer
remains null, so a single-variant test reports (control, null) while a
multi-variant test hits the caught TypeError and yields the error return. -/
theorem analyzeControlBest_spec (st : ScoreOptimizerState) (testName : String)
    (cfg : ABTestConfig) (hlook : st.abTestGroups.lookup testName = some cfg)
    (hne : cfg.results ≠ []) :
    ((∃ p ∈ cfg.results, 0 < conversionRate p.2) →
      analyzeControlBest st testName =
        some (some (cfg.results.headD ("", ⟨0, 0⟩)).1,
          (cfg.results.find? (fun p => decide (0 < conversionRate p.2) &&
            cfg.results.all (fun q =>
              decide (conversionRate q.2 ≤ conversionRate p.2)))).map Prod.fst)) ∧
      ((∀ p ∈ cfg.results, conversionRate p.2 = 0) →
        (1 < cfg.results.length → analyzeControlBest st testName = none) ∧
        (cfg.results.length = 1 →
          analyzeControlBest st testName =
            some (some (cfg.results.headD ("", ⟨0, 0⟩)).1, none))) := by
  obtain ⟨p0, rtl, hres⟩ : ∃ p0 rtl, cfg.results = p0 :: rtl := by
    cases hcr : cfg.results with
    | nil => exact absurd hcr hne
    | cons a l => exact ⟨a, l, rfl⟩
  have hcontrol : (findControlBest cfg.results).1 = some p0.1 := by
    rw [hres]
    exact findControlBest_control p0 rtl
  have hheadD : (cfg.results.headD ("", ⟨0, 0⟩)).1 = p0.1 := by
    rw [hres]
    rfl
  constructor
  · intro hex
    have hbest := cbFold_best_exists cfg.results none none 0 hex
    rw [← findControlBest_eq] at hbest
    obtain ⟨pm, hpm, hpmax⟩ := exists_max_rate hne
    have hfind : (cfg.results.find? (fun p => decide (0 < conversionRate p.2) &&
        cfg.results.all (fun q =>
          decide (conversionRate q.2 ≤ conversionRate p.2)))).isSome := by
      rw [List.find?_isSome]
      obtain ⟨pw, hpw, hpwpos⟩ := hex
      refine ⟨pm, hpm, ?_⟩
      simp only [Bool.and_eq_true, decide_eq_true_eq, List.all_eq_true]
      exact ⟨lt_of_lt_of_le hpwpos (hpmax pw hpw), fun q hq => by simpa using hpmax q hq⟩
    obtain ⟨pf, hpf⟩ := Option.isSome_iff_exists.mp hfind
    rw [hpf, Option.map_some'] at hbest
    rw [analyzeControlBest_of_best_some hlook hbest, hcontrol, hheadD, hpf,
      Option.map_some']
  · intro hzero
    have hble := cbFold_best_all_le cfg.results none none 0
      (fun p hp => le_of_eq (hzero p hp))
    rw [← findControlBest_eq] at hble
    have hb1 : (findControlBest cfg.results).2.1 = none := by rw [hble]
    have hck : (match (findControlBest cfg.results).1 with
        | some c => (cfg.results.lookup c).isSome
        | none => false) = true := by
      rw [hcontrol]
      rw [hres]
      cases p0 with
      | mk k0 s0 =>
        simp [List.lookup_cons]
    constructor
    · intro hlen
      simp only [analyzeControlBest, hlook, hb1, hck, Bool.and_true, decide_eq_true_eq]
      rw [if_pos hlen]
    · intro hlen
      simp only [analyzeControlBest, hlook, hb1, hck, Bool.and_true, decide_eq_true_eq]
      rw [if_neg (by omega), hcontrol, hheadD]

/-- C4 counterexample: in the fixture test every conversion rate is 0, yet the
analysis does not identify any best performer, let alone the first-configured
variant: bestPerformer stays null, results[null] is undefined inside
calculatePValue, the TypeError is caught, and the call returns the error
object (modelled as none). -/
theorem analyzeControlBest_all_zero_error :
    (∀ p ∈ cfgT.results, conversionRate p.2 = 0) ∧
      analyzeControlBest stT "t" = none := by
  constructor
  · intro p hp
    simp only [cfgT, List.mem_cons, List.not_mem_nil, or_false] at hp
    rcases hp with rfl | rfl <;> rfl
  · rfl

/-- C4 witness: with one conversion on B out of one assignment each, the
analysis identifies control A and best performer B. -/
theorem analyzeControlBest_spec_witness :
    analyzeControlBest stT2 "t" = some (some "A", some "B") := by
  have hlook : stT2.abTestGroups.lookup "t" = some cfgT2 := by
    simp [stT2, List.lookup]
  have h := (analyzeControlBest_spec stT2 "t" cfgT2 hlook (by simp [cfgT2])).1
    ⟨("B", ⟨1, 1⟩), by simp [cfgT2], by norm_num [conversionRate]⟩
  rw [h]
  have hfind : cfgT2.results.find? (fun p => decide (0 < conversionRate p.2) &&
      cfgT2.results.all (fun q =>
        decide (conversionRate q.2 ≤ conversionRate p.2))) = some ("B", ⟨1, 1⟩) := by
    norm_num [cfgT2, List.find?, List.all, conversionRate]
  rw [hfind]
  rfl

/-! setupABTest: allocation rescaling. -/

theorem sum_map_mul_div (l : List ℚ) (s : ℚ) :
    (l.map (fun a => a * 100 / s)).sum = l.sum * 100 / s := by
  induction l with
  | nil => simp
  | cons a rest ih =>
    simp only [List.map_cons, List.sum_cons, ih]
    ring

/-- C5 (amended): for a non-empty variant list and an explicitly supplied
allocation with nonzero sum, setupABTest stores an allocation whose sum is
within 0.001 of 100: exactly 100 whenever the rescale branch fires, and the
unchanged input sum (already within 0.001 of 100) otherwise. -/
theorem setupABTest_allocation_sum (st : ScoreOptimizerState) (testName : String)
    (variants : List ABTestVariant) (alloc : List ℚ)
    (hv : variants ≠ []) (hs : alloc.sum ≠ 0) :
    ∃ cfg, (setupABTest st testName variants (some alloc)).1 = some cfg ∧
      |cfg.allocation.sum - 100| ≤ 1 / 1000 := by
  have hvne : variants.isEmpty = false := by
    cases variants with
    | nil => exact absurd rfl hv
    | cons a l => rfl
  by_cases hcond : 1 / 1000 < |alloc.sum - 100|
  · have hset : (setupABTest st testName variants (some alloc)).1 =
        some
          { name := testName, variants := variants,
            allocation := alloc.map (fun a => a * 100 / alloc.sum),
            status := ABTestStatus.active,
            results := fromEntries (variants.map fun v => (v.name, ⟨0, 0⟩)) } := by
      simp only [setupABTest, hvne, Bool.false_eq_true, if_false, Option.getD_some,
        if_pos hcond]
    refine ⟨_, hset, ?_⟩
    dsimp only
    rw [sum_map_mul_div, mul_comm, mul_div_assoc, div_self hs, mul_one]
    norm_num
  · have hset : (setupABTest st testName variants (some alloc)).1 =
        some
          { name := testName, variants := variants,
            allocation := alloc,
            status := ABTestStatus.active,
            results := fromEntries (variants.map fun v => (v.name, ⟨0, 0⟩)) } := by
      simp only [setupABTest, hvne, Bool.false_eq_true, if_false, Option.getD_some,
        if_neg hcond]
    refine ⟨_, hset, ?_⟩
    dsimp only
    exact le_of_not_lt hcond

/-- C5 witness: the spec scenario setup("t", variants, [30, 30, 30]): the sum
90 triggers the rescale and the stored allocation sums to exactly 100. -/
theorem setupABTest_allocation_sum_witness :
    ∃ cfg, (setupABTest stT "t3" [{ name := "A", weights := [] }]
        (some [(30 : ℚ), 30, 30])).1 = some cfg ∧
      |cfg.allocation.sum - 100| ≤ 1 / 1000 :=
  setupABTest_allocation_sum stT "t3" [{ name := "A", weights := [] }]
    [(30 : ℚ), 30, 30] (by simp) (by norm_num)

/-- C5 counterexample: the allocation [99.9995] is inside the 0.001 guard, so
it is stored unchanged, and its sum misses 100 by 0.0005, far more than the
claimed 1e-6 tolerance. -/
theorem setupABTest_tolerance_cex :
    ((setupABTest stT "t2" [{ name := "A", weights := [] }]
        (some [(199999 : ℚ) / 2000])).1.map (fun cfg => cfg.allocation.sum)) =
      some ((199999 : ℚ) / 2000) ∧
      1 / 1000000 < |((199999 : ℚ) / 2000) - 100| := by
  have habs : |((199999 : ℚ) / 2000) - 100| = 1 / 2000 := by
    rw [show ((199999 : ℚ) / 2000) - 100 = -(1 / 2000) by norm_num, abs_neg]
    norm_num
  constructor
  · have hcond : ¬ (1 / 1000 : ℚ) < |[(199999 : ℚ) / 2000].sum - 100| := by
      simp only [List.sum_cons, List.sum_nil, add_zero]
      rw [habs]
      norm_num
    simp only [setupABTest, List.isEmpty_cons, Bool.false_eq_true, if_false,
      Option.getD_some, if_neg hcond]
    simp
  · rw [habs]
    norm_num

/-! The Correlation Engine. -/

theorem sum_const_of_all_eq {c : ℚ} :
    ∀ {l : List ℚ}, (∀ a ∈ l, a = c) → l.sum = c * l.length
  | [], _ => by simp
  | a :: rest, h => by
    have ha : a = c := h a (List.mem_cons_self _ _)
    have hrest := sum_const_of_all_eq (fun b hb => h b (List.mem_cons_of_mem _ hb))
    simp only [List.sum_cons, List.length_cons, hrest, ha]
    push_cast
    ring

/-- A constant input sequence (zero variance) on either side makes
calculateCorrelation return exactly 0 through its denominator === 0 guard. -/
theorem calculateCorrelation_const_zero {x y : List ℚ}
    (hlen : x.length = y.length) (hn : 1 < x.length)
    (hconst : (∀ a ∈ x, a = x.headD 0) ∨ (∀ b ∈ y, b = y.headD 0)) :
    calculateCorrelation x y = 0 := by
  have hn0 : (x.length : ℚ) ≠ 0 := by
    have : 0 < x.length := lt_trans Nat.zero_lt_one hn
    exact_mod_cast Nat.pos_iff_ne_zero.mp this
  rcases hconst with hx | hy
  · have hmean : x.sum / (x.length : ℚ) = x.headD 0 := by
      rw [sum_const_of_all_eq hx, mul_div_assoc, div_self hn0, mul_one]
    have hxv : ((x.zip y).map fun p =>
        (p.1 - x.sum / (x.length : ℚ)) * (p.1 - x.sum / (x.length : ℚ))).sum = 0 := by
      apply List.sum_eq_zero
      intro t ht
      simp only [List.mem_map] at ht
      obtain ⟨p, hp, rfl⟩ := ht
      have hp1 : p.1 ∈ x := (List.of_mem_zip hp).1
      rw [hmean, hx p.1 hp1]
      ring
    simp only [calculateCorrelation, hxv]
    norm_num
  · have hmean : y.sum / (x.length : ℚ) = y.headD 0 := by
      rw [sum_const_of_all_eq hy, ← hlen, mul_div_assoc, div_self hn0, mul_one]
    have hyv : ((x.zip y).map fun p =>
        (p.2 - y.sum / (x.length : ℚ)) * (p.2 - y.sum / (x.length : ℚ))).sum = 0 := by
      apply List.sum_eq_zero
      intro t ht
      simp only [List.mem_map] at ht
      obtain ⟨p, hp, rfl⟩ := ht
      have hp2 : p.2 ∈ y := (List.of_mem_zip hp).2
      rw [hmean, hy p.2 hp2]
      ring
    simp only [calculateCorrelation, hyv]
    norm_num

/-- A constant side (all first components, or all second components, equal)
zeroes the matching variance factor, so the unguarded inline correlation of
calculateOptimizedWeights divides by a zero denominator: no real result. -/
theorem inlineCorrelationAbs_const_none {values : List (ℚ × ℚ)} {c : ℚ}
    (hconst : (∀ p ∈ values, p.1 = c) ∨ (∀ p ∈ values, p.2 = c)) :
    inlineCorrelationAbs values = none := by
  rcases hconst with hx | hy
  · have h1 : (values.map Prod.fst).sum = c * values.length := by
      have h := sum_const_of_all_eq (c := c) (l := values.map Prod.fst)
        (fun a ha => by
          obtain ⟨p, hp, rfl⟩ := List.mem_map.mp ha
          exact hx p hp)
      simpa using h
    have h2 : (values.map (fun p => p.1 * p.1)).sum = c * c * values.length := by
      have h := sum_const_of_all_eq (c := c * c) (l := values.map (fun p => p.1 * p.1))
        (fun a ha => by
          obtain ⟨p, hp, rfl⟩ := List.mem_map.mp ha
          rw [hx p hp])
      simpa using h
    simp only [inlineCorrelationAbs, h1, h2]
    have hfac : (values.length : ℚ) * (c * c * values.length) -
        c * (values.length : ℚ) * (c * (values.length : ℚ)) = 0 := by ring
    rw [hfac, zero_mul]
    simp
  · have h1 : (values.map Prod.snd).sum = c * values.length := by
      have h := sum_const_of_all_eq (c := c) (l := values.map Prod.snd)
        (fun a ha => by
          obtain ⟨p, hp, rfl⟩ := List.mem_map.mp ha
          exact hy p hp)
      simpa using h
    have h2 : (values.map (fun p => p.2 * p.2)).sum = c * c * values.length := by
      have h := sum_const_of_all_eq (c := c * c) (l := values.map (fun p => p.2 * p.2))
        (fun a ha => by
          obtain ⟨p, hp, rfl⟩ := List.mem_map.mp ha
          rw [hy p hp])
      simpa using h
    simp only [inlineCorrelationAbs, h1, h2]
    have hfac : (values.length : ℚ) * (c * c * values.length) -
        c * (values.length : ℚ) * (c * (values.length : ℚ)) = 0 := by ring
    rw [hfac, mul_zero]
    simp

/-- C7 (amended): with zero variance on either side, the Correlation Engine
calculateCorrelation (scoreOptimizer.ts lines 554-577) returns exactly 0
through its denominator === 0 guard; the inline correlation of
calculateOptimizedWeights (customerData.ts lines 156-181), which the claim
also covers, has no such guard and instead divides by a zero denominator,
producing NaN (no real result, modelled none) rather than 0. -/
theorem correlation_zero_variance_policy {x y : List ℚ}
    (hlen : x.length = y.length) (hn : 1 < x.length)
    (hconst : (∀ a ∈ x, a = x.headD 0) ∨ (∀ b ∈ y, b = y.headD 0)) :
    calculateCorrelation x y = 0 ∧ inlineCorrelationAbs (x.zip y) = none := by
  refine ⟨calculateCorrelation_const_zero hlen hn hconst, ?_⟩
  rcases hconst with hx | hy
  · exact inlineCorrelationAbs_const_none
      (Or.inl (fun p hp => hx p.1 (List.of_mem_zip hp).1))
  · exact inlineCorrelationAbs_const_none
      (Or.inr (fun p hp => hy p.2 (List.of_mem_zip hp).2))

/-- C7 witness: constant x = [1, 1] against y = [2, 3]: the guarded engine
returns 0 while the unguarded inline correlation returns no real result. -/
theorem correlation_zero_variance_policy_witness :
    calculateCorrelation [(1 : ℚ), 1] [(2 : ℚ), 3] = 0 ∧
      inlineCorrelationAbs ([(1 : ℚ), 1].zip [(2 : ℚ), 3]) = none :=
  correlation_zero_variance_policy (by decide) (by decide) (Or.inl (by decide))

/-- C7 counterexample: a constant metric column (here the pairs (1, 10) and
(1, 20) of metric value and churn) makes the inline correlation of
calculateOptimizedWeights compute Math.abs(0 / 0) = NaN: the cited code path
does not return 0 on zero variance. -/
theorem inlineCorrelation_const_nan :
    inlineCorrelationAbs [((1 : ℚ), 10), ((1 : ℚ), 20)] = none ∧
      inlineCorrelationAbs [((1 : ℚ), 10), ((1 : ℚ), 20)] ≠ some 0 := by
  have h : inlineCorrelationAbs [((1 : ℚ), 10), ((1 : ℚ), 20)] = none :=
    inlineCorrelationAbs_const_none (c := 1) (Or.inl (by decide))
  refine ⟨h, ?_⟩
  rw [h]
  exact fun hc => Option.noConfusion hc

example : roundHalfUp (1 / 2) = 1 := by norm_num [roundHalfUp]
example : roundHalfUp (-1 / 2) = 0 := by norm_num [roundHalfUp]
example : isInvertedFeature "mySupportTickets2" = true := by decide
example : isInvertedFeature "supportTicketVolume" = false := by decide
example :
    normalizeTo100 [("a", 1), ("b", 1), ("c", 1)] = [("a", 34), ("b", 33), ("c", 33)] := by
  norm_num [normalizeTo100, roundedWeights, roundHalfUp, firstMaxEntry, addToFirst,
    List.find?, List.all]
example : calculateHealthScore [("a", 1), ("b", 1)] [("a", 50), ("b", 50)] = 100 := by
  norm_num [calculateHealthScore, healthAccum, List.foldl, List.lookup, normalizedValue,
    (by decide : isInvertedFeature "a" = false), (by decide : isInvertedFeature "b" = false),
    (by decide : ("a" == "a") = true), (by decide : ("b" == "a") = false),
    (by decide : ("b" == "b") = true)]
example : calculateHealthScore [("a", 0), ("b", 0)] [("a", 50), ("b", 50)] = 0 := by
  norm_num [calculateHealthScore, healthAccum, List.foldl, List.lookup, normalizedValue,
    (by decide : isInvertedFeature "a" = false), (by decide : isInvertedFeature "b" = false),
    (by decide : ("a" == "a") = true), (by decide : ("b" == "a") = false),
    (by decide : ("b" == "b") = true)]
example : calculateHealthScore [("c", 1)] [("a", 50), ("b", 50)] = 50 := by
  norm_num [calculateHealthScore, healthAccum, List.foldl, List.lookup,
    (by decide : ("a" == "c") = false), (by decide : ("b" == "c") = false)]
